import Mathlib

/-!
Shallow embedding of the audio codec utilities and live-session logic of the
Local-Guide application (src/services/geminiService.ts and
src/components/LiveChatApp.tsx), with theorems checking the specification's
claims about them.

Modelling conventions: JS numbers are modelled by ℚ (every numeric operation
this code performs on audio samples — multiply by the power of two 32768,
truncate to an integer, divide by 32768 — is exact in binary64, so ℚ is a
faithful model on the values that occur); byte buffers are List Nat with
values < 256; JS strings are List Char.
-/

/-- Base64 alphabet used by btoa and atob, as position-indexed characters. -/
def B64ALPHA : List Char :=
  ['A','B','C','D','E','F','G','H','I','J','K','L','M','N','O','P','Q','R','S','T',
   'U','V','W','X','Y','Z','a','b','c','d','e','f','g','h','i','j','k','l','m','n',
   'o','p','q','r','s','t','u','v','w','x','y','z','0','1','2','3','4','5','6','7',
   '8','9','+','/']

def sextetToChar (s : Nat) : Char := B64ALPHA.getD s 'A'

def charToSextet (c : Char) : Nat := B64ALPHA.findIdx (fun x => x == c)

/-- Model of `encode` in geminiService.ts: String.fromCharCode over the bytes,
then btoa — i.e. standard base64 encoding of the byte sequence. -/
def encode : List Nat → List Char
  | [] => []
  | [b0] => [sextetToChar (b0 / 4), sextetToChar (b0 % 4 * 16), '=', '=']
  | [b0, b1] => [sextetToChar (b0 / 4), sextetToChar (b0 % 4 * 16 + b1 / 16),
      sextetToChar (b1 % 16 * 4), '=']
  | b0 :: b1 :: b2 :: rest =>
      sextetToChar (b0 / 4) :: sextetToChar (b0 % 4 * 16 + b1 / 16) ::
      sextetToChar (b1 % 16 * 4 + b2 / 64) :: sextetToChar (b2 % 64) :: encode rest

/-- Model of `decode` in geminiService.ts: atob to a binary string, then
charCodeAt per index into a Uint8Array — i.e. standard base64 decoding to the
byte sequence.  Only well-formed inputs (outputs of `encode`) reach it in the
theorems below; atob's rejection of malformed input is not modelled. -/
def decode : List Char → List Nat
  | c0 :: c1 :: c2 :: c3 :: rest =>
      if c2 = '=' then [charToSextet c0 * 4 + charToSextet c1 / 16]
      else if c3 = '=' then
        [charToSextet c0 * 4 + charToSextet c1 / 16,
         charToSextet c1 % 16 * 16 + charToSextet c2 / 4]
      else
        (charToSextet c0 * 4 + charToSextet c1 / 16) ::
        (charToSextet c1 % 16 * 16 + charToSextet c2 / 4) ::
        (charToSextet c2 % 4 * 64 + charToSextet c3) :: decode rest
  | _ => []

/-- Truncation toward zero, as performed by the JS abstract operation ToInt16
on the value being stored (computed on num/den so that it evaluates;
ratTrunc_eq below relates it to floor and ceiling). -/
def ratTrunc (x : ℚ) : ℤ := x.num.tdiv x.den

/-- Storing a JS number into an Int16Array element (`int16[i] = data[i] * 32768`
in createBlob): ToInt16 truncates toward zero and reduces modulo 2^16 into the
signed 16-bit range — wraparound, not clipping. -/
def toInt16 (x : ℚ) : ℤ :=
  let m := ratTrunc x % 65536
  if 32768 ≤ m then m - 65536 else m

/-- The Int16Array built inside createBlob: each float sample times 32768,
stored through the Int16Array element conversion. -/
def createBlobInt16 (data : List ℚ) : List ℤ := data.map fun s => toInt16 (s * 32768)

/-- Little-endian byte pair of one int16 value, as laid out in the
Int16Array's underlying buffer (`new Uint8Array(int16.buffer)`). -/
def int16ToBytes (v : ℤ) : List Nat :=
  [(v % 65536).toNat % 256, (v % 65536).toNat / 256]

def int16sToBytes (vs : List ℤ) : List Nat := (vs.map int16ToBytes).flatten

structure WireBlob where
  data : List Char
  mimeType : String
deriving DecidableEq

/-- Model of `createBlob` in geminiService.ts. -/
def createBlob (data : List ℚ) : WireBlob :=
  { data := encode (int16sToBytes (createBlobInt16 data)),
    mimeType := "audio/pcm;rate=16000" }

/-- Reading a byte buffer back as an Int16Array view: consecutive little-endian
byte pairs interpreted as signed 16-bit integers. -/
def bytesToInt16s : List Nat → List ℤ
  | lo :: hi :: rest =>
      (if 32768 ≤ lo + 256 * hi then (lo + 256 * hi : ℤ) - 65536
       else (lo + 256 * hi : ℤ)) :: bytesToInt16s rest
  | _ => []

structure AudioBuffer where
  sampleRate : ℚ
  numChannels : Nat
  length : Nat
  channelData : List (List ℚ)
deriving DecidableEq

/-- `audioBuffer.duration` of the Web Audio API: frame count over sample rate. -/
def AudioBuffer.duration (b : AudioBuffer) : ℚ := (b.length : ℚ) / b.sampleRate

inductive AudioDecodeError
  | rangeError
  | notSupported
deriving DecidableEq

/-- Model of `decodeAudioData` in geminiService.ts.
`new Int16Array(data.buffer)` throws a RangeError when the byte length is odd.
`frameCount = dataInt16.length / numChannels` is JS float division; passing it
to `ctx.createBuffer` coerces it through ToUint32, i.e. floor, and createBuffer
throws NotSupportedError when the channel count is outside [1, 32] or the
coerced length is 0.  The fill loop writes `dataInt16[i * numChannels + channel]
/ 32768.0` for every frame index below the floor (out-of-bounds typed-array
writes for the fractional tail are dropped), so the resulting channel data is
exactly the floor-truncated de-interleaving. -/
def decodeAudioData (data : List Nat) (sampleRate : ℚ) (numChannels : Nat) :
    Except AudioDecodeError AudioBuffer :=
  if data.length % 2 ≠ 0 then .error .rangeError
  else
    let dataInt16 := bytesToInt16s data
    let frameCount := dataInt16.length / numChannels
    if numChannels = 0 ∨ 32 < numChannels ∨ frameCount = 0 then .error .notSupported
    else
      .ok { sampleRate := sampleRate, numChannels := numChannels, length := frameCount,
            channelData := (List.range numChannels).map fun channel =>
              (List.range frameCount).map fun i =>
                ((dataInt16.getD (i * numChannels + channel) 0 : ℤ) : ℚ) / 32768 }

/-- Whether an Except value is an error (the decode path threw). -/
def isErr {ε α : Type} : Except ε α → Bool
  | .error _ => true
  | .ok _ => false

/-- Channel data of a successful decode, none on failure. -/
def channelDataOf : Except AudioDecodeError AudioBuffer → Option (List (List ℚ))
  | .ok b => some b.channelData
  | .error _ => none

/-! ### Codec lemmas -/

theorem sextetToChar_ne_pad (s : Nat) (h : s < 64) : sextetToChar s ≠ '=' := by
  revert s h; decide

theorem charToSextet_sextetToChar (s : Nat) (h : s < 64) : charToSextet (sextetToChar s) = s := by
  revert s h; decide

theorem encode_length (bs : List Nat) : (encode bs).length = 4 * ((bs.length + 2) / 3) := by
  match bs with
  | [] => rfl
  | [b0] => simp [encode]
  | [b0, b1] => simp [encode]
  | b0 :: b1 :: b2 :: rest =>
    simp only [encode, List.length_cons, encode_length rest]
    omega

theorem decode_encode (bs : List Nat) (h : ∀ b ∈ bs, b < 256) : decode (encode bs) = bs := by
  match bs with
  | [] => rfl
  | [b0] =>
    have hb0 : b0 < 256 := h b0 (by simp)
    simp only [encode, decode, if_true]
    rw [charToSextet_sextetToChar _ (by omega), charToSextet_sextetToChar _ (by omega)]
    simp only [List.cons.injEq, and_true]
    omega
  | [b0, b1] =>
    have hb0 : b0 < 256 := h b0 (by simp)
    have hb1 : b1 < 256 := h b1 (by simp)
    simp only [encode, decode, if_true]
    rw [if_neg (sextetToChar_ne_pad _ (by omega))]
    rw [charToSextet_sextetToChar _ (by omega), charToSextet_sextetToChar _ (by omega),
        charToSextet_sextetToChar _ (by omega)]
    simp only [List.cons.injEq, and_true]
    omega
  | b0 :: b1 :: b2 :: rest =>
    have hb0 : b0 < 256 := h b0 (by simp)
    have hb1 : b1 < 256 := h b1 (by simp)
    have hb2 : b2 < 256 := h b2 (by simp)
    have ih := decode_encode rest (fun b hb => h b (by simp [hb]))
    simp only [encode, decode]
    rw [if_neg (sextetToChar_ne_pad _ (by omega)), if_neg (sextetToChar_ne_pad _ (by omega))]
    rw [charToSextet_sextetToChar _ (by omega), charToSextet_sextetToChar _ (by omega),
        charToSextet_sextetToChar _ (by omega), charToSextet_sextetToChar _ (by omega)]
    rw [ih]
    simp only [List.cons.injEq, and_true]
    refine ⟨by omega, by omega, by omega⟩

theorem ratTrunc_eq (x : ℚ) : ratTrunc x = if 0 ≤ x then ⌊x⌋ else ⌈x⌉ := by
  by_cases h : 0 ≤ x
  · rw [if_pos h, Rat.floor_def]
    exact Int.tdiv_eq_ediv (Rat.num_nonneg.mpr h) (Int.ofNat_nonneg _)
  · rw [if_neg h]
    have h3 : 0 ≤ -x := by push_neg at h; linarith
    have e1 : ratTrunc (-x) = ⌊-x⌋ := by
      rw [Rat.floor_def]
      exact Int.tdiv_eq_ediv (Rat.num_nonneg.mpr h3) (Int.ofNat_nonneg _)
    have e2 : ratTrunc (-x) = -ratTrunc x := by
      show (-x).num.tdiv (-x).den = -(x.num.tdiv x.den)
      rw [Rat.num_neg_eq_neg_num, Rat.den_neg_eq_den, Int.neg_tdiv]
    rw [Int.floor_neg] at e1
    omega

/-- Distance from a rational to its truncation toward zero is below one. -/
theorem abs_sub_ratTrunc_lt_one (x : ℚ) : |x - (ratTrunc x : ℚ)| < 1 := by
  rw [ratTrunc_eq]
  by_cases h : 0 ≤ x
  · rw [if_pos h, abs_sub_lt_iff]
    constructor
    · linarith [Int.sub_one_lt_floor x]
    · linarith [Int.floor_le x]
  · rw [if_neg h, abs_sub_lt_iff]
    constructor
    · linarith [Int.le_ceil x]
    · linarith [Int.ceil_lt_add_one x]

/-- Truncation stays inside the int16 value range on inputs in [-32768, 32768). -/
theorem ratTrunc_range (x : ℚ) (h1 : -32768 ≤ x) (h2 : x < 32768) :
    -32768 ≤ ratTrunc x ∧ ratTrunc x ≤ 32767 := by
  rw [ratTrunc_eq]
  by_cases h : 0 ≤ x
  · rw [if_pos h]
    constructor
    · have : (0 : ℤ) ≤ ⌊x⌋ := Int.floor_nonneg.mpr h
      omega
    · have : ⌊x⌋ < 32768 := Int.floor_lt.mpr (by exact_mod_cast h2)
      omega
  · rw [if_neg h]
    constructor
    · have hc : ((-32768 : ℤ) : ℚ) ≤ (⌈x⌉ : ℚ) := by
        push_cast
        linarith [Int.le_ceil x]
      exact_mod_cast hc
    · have : ⌈x⌉ ≤ 0 := Int.ceil_le.mpr (by push_neg at h; exact_mod_cast le_of_lt h)
      omega

/-- The Int16Array store conversion always lands in the int16 value range. -/
theorem toInt16_range (x : ℚ) : -32768 ≤ toInt16 x ∧ toInt16 x ≤ 32767 := by
  simp only [toInt16]
  constructor <;> (split <;> omega)

/-- The Int16Array store conversion is truncation modulo 2^16. -/
theorem toInt16_emod (x : ℚ) : toInt16 x % 65536 = ratTrunc x % 65536 := by
  simp only [toInt16]
  split <;> omega

/-- Without wraparound (truncation already in the int16 range), the Int16Array
store conversion is exactly truncation toward zero. -/
theorem toInt16_eq_ratTrunc (x : ℚ) (h1 : -32768 ≤ ratTrunc x) (h2 : ratTrunc x ≤ 32767) :
    toInt16 x = ratTrunc x := by
  simp only [toInt16]
  split <;> omega

/-- The two bytes produced for an int16 value are in byte range. -/
theorem int16ToBytes_lt (v : ℤ) : ∀ b ∈ int16ToBytes v, b < 256 := by
  intro b hb
  have h1 : (v % 65536).toNat < 65536 := by omega
  simp only [int16ToBytes, List.mem_cons, List.not_mem_nil, or_false] at hb
  rcases hb with h | h <;> omega

theorem int16sToBytes_lt (vs : List ℤ) : ∀ b ∈ int16sToBytes vs, b < 256 := by
  intro b hb
  simp only [int16sToBytes, List.mem_flatten, List.mem_map] at hb
  obtain ⟨l, ⟨v, _, rfl⟩, hbl⟩ := hb
  exact int16ToBytes_lt v b hbl

theorem int16sToBytes_length (vs : List ℤ) : (int16sToBytes vs).length = 2 * vs.length := by
  induction vs with
  | nil => rfl
  | cons v rest ih =>
    simp only [int16sToBytes, List.map_cons, List.flatten_cons, List.length_append,
      List.length_cons] at *
    simp [int16ToBytes, ih]
    omega

/-- Reading back the little-endian byte pair of one in-range int16 value. -/
theorem bytesToInt16s_pair (v : ℤ) (h1 : -32768 ≤ v) (h2 : v ≤ 32767) (rest : List Nat) :
    bytesToInt16s (int16ToBytes v ++ rest) = v :: bytesToInt16s rest := by
  have ht : (((v % 65536).toNat : ℤ)) = v % 65536 := by omega
  show bytesToInt16s ((v % 65536).toNat % 256 :: (v % 65536).toNat / 256 :: rest)
      = v :: bytesToInt16s rest
  simp only [bytesToInt16s, List.cons.injEq, and_true]
  split <;> omega

/-- Reading back little-endian int16 bytes recovers the stored values. -/
theorem bytesToInt16s_int16sToBytes (vs : List ℤ)
    (h : ∀ v ∈ vs, -32768 ≤ v ∧ v ≤ 32767) :
    bytesToInt16s (int16sToBytes vs) = vs := by
  induction vs with
  | nil => rfl
  | cons v rest ih =>
    have hv := h v (by simp)
    have hrest := ih fun w hw => h w (by simp [hw])
    have hsplit : int16sToBytes (v :: rest) = int16ToBytes v ++ int16sToBytes rest := by
      simp [int16sToBytes]
    rw [hsplit, bytesToInt16s_pair v hv.1 hv.2, hrest]

theorem bytesToInt16s_length (bs : List Nat) : (bytesToInt16s bs).length = bs.length / 2 := by
  match bs with
  | [] => rfl
  | [b] => simp [bytesToInt16s]
  | lo :: hi :: rest =>
    simp only [bytesToInt16s, List.length_cons, bytesToInt16s_length rest]
    omega

/-- getD of a mapped range at an in-bounds index. -/
theorem getD_range_map {α : Type} (f : Nat → α) (n i : Nat) (h : i < n) (d : α) :
    ((List.range n).map f).getD i d = f i := by
  rw [List.getD_eq_getElem?_getD, List.getElem?_map, List.getElem?_range h]
  rfl

/-- getD of a mapped list at an in-bounds index. -/
theorem getD_map_lt {α β : Type} (f : α → β) (l : List α) (i : Nat) (h : i < l.length)
    (d : β) (d0 : α) : (l.map f).getD i d = f (l.getD i d0) := by
  rw [List.getD_eq_getElem?_getD, List.getElem?_map,
      List.getElem?_eq_getElem h, List.getD_eq_getElem?_getD, List.getElem?_eq_getElem h]
  rfl

/-- Mono decode of an even-length, nonempty byte buffer succeeds and
de-interleaves trivially. -/
theorem decodeAudioData_mono (data : List Nat) (sr : ℚ) (he : data.length % 2 = 0)
    (hn : 0 < data.length / 2) :
    decodeAudioData data sr 1 =
      .ok { sampleRate := sr, numChannels := 1, length := data.length / 2,
            channelData := [(List.range (data.length / 2)).map fun i =>
              (((bytesToInt16s data).getD i 0 : ℤ) : ℚ) / 32768] } := by
  have hlen : (bytesToInt16s data).length = data.length / 2 := bytesToInt16s_length data
  simp only [decodeAudioData, hlen, Nat.div_one]
  rw [if_neg (by omega)]
  rw [if_neg (by omega)]
  rw [show List.range 1 = [0] from rfl]
  simp

/-- One sample through quantization and back: within 1/32768 when the sample
is in [-1, 1) so that no wraparound occurs. -/
theorem quantize_roundtrip_close (s : ℚ) (h1 : -1 ≤ s) (h2 : s < 1) :
    |((toInt16 (s * 32768) : ℤ) : ℚ) / 32768 - s| ≤ 1 / 32768 := by
  have hx1 : -32768 ≤ s * 32768 := by linarith
  have hx2 : s * 32768 < 32768 := by linarith
  obtain ⟨hr1, hr2⟩ := ratTrunc_range _ hx1 hx2
  rw [toInt16_eq_ratTrunc _ hr1 hr2]
  have habs := abs_sub_ratTrunc_lt_one (s * 32768)
  rw [abs_sub_comm] at habs
  have hrw : (ratTrunc (s * 32768) : ℚ) / 32768 - s
      = ((ratTrunc (s * 32768) : ℚ) - s * 32768) / 32768 := by ring
  rw [hrw, abs_div, abs_of_pos (by norm_num : (0:ℚ) < 32768)]
  rw [div_le_div_iff_of_pos_right (by norm_num : (0:ℚ) < 32768)]
  exact le_of_lt habs

/-- Quantizer asserted by the spec (claim C4), written from the spec's words:
round(s * 32768) clipped to the int16 range. -/
def roundClipQuantize (s : ℚ) : ℤ := max (-32768) (min 32767 (round (s * 32768)))

/-- C3 (counterexample): at the in-range sample 1, createBlob wraps the
quantized value to -32768, the decoded sample is -1, and the reconstruction
error is 2, far above 1/32768 — the round trip is not within quantization
error on all of [-1, 1]. -/
theorem roundtrip_error_bound_cex :
    channelDataOf (decodeAudioData (decode (createBlob [(1:ℚ)]).data) 24000 1)
      = some [[-1]] ∧
    ¬ |(-1 : ℚ) - 1| ≤ 1 / 32768 := by
  constructor
  · have e0 : toInt16 ((32768:ℚ)) = -32768 := by decide
    have e1 : createBlobInt16 [(1:ℚ)] = [-32768] := by
      simp [createBlobInt16, e0]
    have e2 : (createBlob [(1:ℚ)]).data = encode (int16sToBytes (createBlobInt16 [(1:ℚ)])) := rfl
    have e3 : int16sToBytes [(-32768 : ℤ)] = [0, 128] := by decide
    have e4 : decode (encode [(0:Nat), 128]) = [0, 128] := decode_encode _ (by decide)
    have e5 : bytesToInt16s [(0:Nat), 128] = [-32768] := by decide
    rw [e2, e1, e3, e4, decodeAudioData_mono _ _ (by decide) (by decide), channelDataOf]
    rw [show List.range (([(0:Nat),128].length) / 2) = [0] from rfl]
    simp [e5]
  · have habs2 : |(-1 : ℚ) - 1| = 2 := by
      rw [abs_of_nonpos (by norm_num)]
      norm_num
    rw [habs2]
    norm_num

/-- C3 (amended): for every nonempty sample list with all values in [-1, 1)
— strictly below 1, so that the Int16Array store does not wrap — encoding with
createBlob and decoding with decode/decodeAudioData at 1 channel yields one
channel of the same length whose samples each differ from the original by at
most 1/32768. -/
theorem roundtrip_error_bound_amended (samples : List ℚ) (hne : samples ≠ [])
    (hb : ∀ s ∈ samples, -1 ≤ s ∧ s < 1) :
    ∃ out : List ℚ,
      channelDataOf (decodeAudioData (decode (createBlob samples).data) 24000 1)
        = some [out] ∧
      out.length = samples.length ∧
      ∀ i, i < samples.length → |out.getD i 0 - samples.getD i 0| ≤ 1 / 32768 := by
  have hrange : ∀ v ∈ createBlobInt16 samples, -32768 ≤ v ∧ v ≤ 32767 := by
    intro v hv
    simp only [createBlobInt16, List.mem_map] at hv
    obtain ⟨s, _, rfl⟩ := hv
    exact toInt16_range _
  have hlv : (createBlobInt16 samples).length = samples.length := by
    simp [createBlobInt16]
  have hslen : 0 < samples.length := List.length_pos.mpr hne
  have hbl : (int16sToBytes (createBlobInt16 samples)).length = 2 * samples.length := by
    rw [int16sToBytes_length, hlv]
  have hdec : decode (createBlob samples).data = int16sToBytes (createBlobInt16 samples) :=
    decode_encode _ (int16sToBytes_lt _)
  have heven : (int16sToBytes (createBlobInt16 samples)).length % 2 = 0 := by omega
  have hpos : 0 < (int16sToBytes (createBlobInt16 samples)).length / 2 := by omega
  have hback : bytesToInt16s (int16sToBytes (createBlobInt16 samples)) = createBlobInt16 samples :=
    bytesToInt16s_int16sToBytes _ hrange
  have hn2 : (int16sToBytes (createBlobInt16 samples)).length / 2 = samples.length := by omega
  rw [hdec, decodeAudioData_mono _ _ heven hpos, channelDataOf]
  refine ⟨_, rfl, ?_, ?_⟩
  · simp [hn2]
  · intro i hi
    rw [getD_range_map _ _ _ (by omega), hback]
    simp only [createBlobInt16]
    rw [getD_map_lt _ _ _ (by omega) _ 0]
    have hmem : samples.getD i 0 ∈ samples := by
      have hg : samples.getD i 0 = samples[i] := by
        rw [List.getD_eq_getElem?_getD, List.getElem?_eq_getElem hi]
        rfl
      rw [hg]
      exact List.getElem_mem hi
    obtain ⟨hs1, hs2⟩ := hb _ hmem
    exact quantize_roundtrip_close _ hs1 hs2

/-- Witness for roundtrip_error_bound_amended at the concrete sample list [0]. -/
theorem roundtrip_error_bound_amended_witness :
    ([(0:ℚ)] ≠ []) ∧ (∀ s ∈ [(0:ℚ)], -1 ≤ s ∧ s < 1) ∧
    (∃ out : List ℚ,
      channelDataOf (decodeAudioData (decode (createBlob [(0:ℚ)]).data) 24000 1)
        = some [out] ∧
      out.length = [(0:ℚ)].length ∧
      ∀ i, i < [(0:ℚ)].length → |out.getD i 0 - [(0:ℚ)].getD i 0| ≤ 1 / 32768) :=
  ⟨by decide, by decide, roundtrip_error_bound_amended [(0:ℚ)] (by decide) (by decide)⟩

/-- C4 (counterexample): on the sample 1, createBlob stores -32768 (truncate
then wrap modulo 2^16), while round-then-clip as the claim states would give
32767. -/
theorem createBlob_round_clip_cex :
    createBlobInt16 [(1:ℚ)] = [-32768] ∧ roundClipQuantize 1 = 32767 ∧
    ((-32768 : ℤ) ≠ 32767) := by
  refine ⟨?_, ?_, by decide⟩
  · have e0 : toInt16 ((32768:ℚ)) = -32768 := by decide
    simp [createBlobInt16, e0]
  · have hr : round ((32768:ℚ)) = (32768 : ℤ) := by
      have h := round_intCast (α := ℚ) 32768
      exact_mod_cast h
    rw [roundClipQuantize, one_mul, hr]
    decide

/-- C4 (amended): createBlob packs little-endian and base64-encodes with the
fixed mime type, and quantizes each sample s by the Int16Array store
conversion — truncation of s * 32768 toward zero, wrapped modulo 2^16 into
[-32768, 32767] (not rounded, not clipped); on samples in [-1, 1) no wraparound
occurs and the stored value is exactly the truncation. -/
theorem createBlob_trunc_wrap (samples : List ℚ) :
    (createBlob samples).data = encode (int16sToBytes (createBlobInt16 samples)) ∧
    (createBlob samples).mimeType = "audio/pcm;rate=16000" ∧
    (∀ s ∈ samples,
      (-32768 ≤ toInt16 (s * 32768) ∧ toInt16 (s * 32768) ≤ 32767) ∧
      toInt16 (s * 32768) % 65536 = ratTrunc (s * 32768) % 65536) ∧
    (∀ s ∈ samples, -1 ≤ s → s < 1 → toInt16 (s * 32768) = ratTrunc (s * 32768)) := by
  refine ⟨rfl, rfl, fun s _ => ⟨toInt16_range _, toInt16_emod _⟩, fun s _ h1 h2 => ?_⟩
  obtain ⟨hr1, hr2⟩ := ratTrunc_range (s * 32768) (by linarith) (by linarith)
  exact toInt16_eq_ratTrunc _ hr1 hr2

/-- Witness for createBlob_trunc_wrap at the concrete sample list [1]. -/
theorem createBlob_trunc_wrap_witness :
    ((1:ℚ) ∈ [(1:ℚ)]) ∧
    ((-32768 ≤ toInt16 ((1:ℚ) * 32768) ∧ toInt16 ((1:ℚ) * 32768) ≤ 32767) ∧
      toInt16 ((1:ℚ) * 32768) % 65536 = ratTrunc ((1:ℚ) * 32768) % 65536) :=
  ⟨by decide, (createBlob_trunc_wrap [(1:ℚ)]).2.2.1 1 (by decide)⟩

/-- C5 (counterexample): a 6-byte buffer decoded at 2 channels — length not
divisible by 2 × channels — does not fail: it silently produces a truncated
one-frame buffer. -/
theorem decodeAudioData_malformed_cex :
    isErr (decodeAudioData [0, 0, 0, 0, 0, 0] 24000 2) = false ∧
    channelDataOf (decodeAudioData [0, 0, 0, 0, 0, 0] 24000 2) = some [[0], [0]] ∧
    ¬ (6 % (2 * 2) = 0) := by
  refine ⟨by decide, ?_, by decide⟩
  have h6 : bytesToInt16s [0, 0, 0, 0, 0, 0] = [0, 0, 0] := by decide
  simp only [decodeAudioData]
  rw [if_neg (by decide), if_neg (by decide), channelDataOf]
  rw [h6]
  rw [show List.range 2 = [0, 1] from rfl, show (([(0:ℤ), 0, 0].length) / 2) = 1 from rfl,
      show List.range 1 = [0] from rfl]
  simp

/-- C5 (amended): decodeAudioData fails exactly when the byte length is odd
(RangeError from the Int16Array view), or fewer than one full frame is present
(floor(length/2/channels) = 0, which also covers channel count 0), or the
channel count exceeds 32 — not when the length merely fails to divide by
2 × channels; in that case it silently truncates. -/
theorem decodeAudioData_error_characterization (data : List Nat) (numChannels : Nat) (sr : ℚ) :
    isErr (decodeAudioData data sr numChannels)
      = decide (data.length % 2 = 1 ∨ data.length / 2 / numChannels = 0 ∨ 32 < numChannels) := by
  have hlen := bytesToInt16s_length data
  simp only [decodeAudioData]
  by_cases h1 : data.length % 2 ≠ 0
  · rw [if_pos h1, isErr]
    exact (decide_eq_true (by omega)).symm
  · rw [if_neg h1]
    by_cases h2 : numChannels = 0 ∨ 32 < numChannels ∨ (bytesToInt16s data).length / numChannels = 0
    · rw [if_pos h2, isErr]
      rw [hlen] at h2
      refine (decide_eq_true ?_).symm
      rcases h2 with h | h | h
      · subst h
        exact Or.inr (Or.inl (Nat.div_zero _))
      · exact Or.inr (Or.inr h)
      · exact Or.inr (Or.inl h)
    · rw [if_neg h2, isErr]
      rw [hlen] at h2
      push_neg at h2
      refine (decide_eq_false ?_).symm
      push_neg
      exact ⟨by omega, h2.2.2, h2.2.1⟩

/-! ### Playback pipeline: the onmessage audio path of connectLiveSession -/

structure Scheduled where
  start : ℚ
  duration : ℚ
deriving DecidableEq

/-- Mutable playback state of a live session: the nextStartTime cursor
(initialized to 0) and the set of scheduled sources, modelled as a list in
scheduling order. -/
structure PlaybackState where
  nextStartTime : ℚ
  sources : List Scheduled
deriving DecidableEq

/-- The fields of a LiveServerMessage consumed by the handlers:
serverContent.modelTurn.parts[0].inlineData.data (base64 audio, may be
absent), serverContent.interrupted, the two transcription fragment objects
(modelled by their text), and serverContent.turnComplete. -/
structure ServerMessage where
  audioData : Option (List Char)
  interrupted : Bool
  outputTranscription : Option (List Char)
  inputTranscription : Option (List Char)
  turnComplete : Bool
deriving DecidableEq

/-- Audio part of the onmessage handler in connectLiveSession: when the message
carries a nonempty base64 audio string (the empty string is falsy in JS, so it
is skipped), set nextStartTime to max(nextStartTime, currentTime), then decode;
on success schedule a source at nextStartTime, advance nextStartTime by the
buffer's duration and register the source; on a decode error the catch only
logs, leaving the state with just the bump.  Returns the new state and the
newly scheduled source, if any. -/
def processAudioPart (currentTime : ℚ) (st : PlaybackState) (audioData : Option (List Char)) :
    PlaybackState × Option Scheduled :=
  match audioData with
  | none => (st, none)
  | some s =>
    if s = [] then (st, none)
    else
      let t := max st.nextStartTime currentTime
      match decodeAudioData (decode s) 24000 1 with
      | .error _ => ({ st with nextStartTime := t }, none)
      | .ok buf =>
        let sch : Scheduled := { start := t, duration := buf.duration }
        ({ nextStartTime := t + buf.duration, sources := st.sources ++ [sch] }, some sch)

/-- Full onmessage handler on the playback state: the audio part, then the
interruption part, which stops every scheduled source, clears the set and
resets nextStartTime to 0.  Returns the new state and the list of sources that
were stopped. -/
def processMessage (currentTime : ℚ) (st : PlaybackState) (msg : ServerMessage) :
    PlaybackState × List Scheduled :=
  let st1 := (processAudioPart currentTime st msg.audioData).1
  if msg.interrupted then ({ nextStartTime := 0, sources := [] }, st1.sources)
  else (st1, [])

/-- The sources scheduled, in scheduling order, while sequentially processing
a list of (device clock, base64 chunk) inbound audio messages. -/
def scheduleStarts (st : PlaybackState) : List (ℚ × List Char) → List Scheduled
  | [] => []
  | c :: rest =>
    ((processAudioPart c.1 st (some c.2)).2).toList ++
      scheduleStarts (processAudioPart c.1 st (some c.2)).1 rest

/-- Chained from t: each source starts no earlier than t and no earlier than
the end of its predecessor. -/
def chainedFrom : ℚ → List Scheduled → Prop
  | _, [] => True
  | t, f :: rest => t ≤ f.start ∧ chainedFrom (f.start + f.duration) rest

/-- A buffer successfully produced by decodeAudioData has the requested sample
rate and hence a nonnegative duration when the rate is positive. -/
theorem decodeAudioData_ok_duration (data : List Nat) (sr : ℚ) (c : Nat) (b : AudioBuffer)
    (h : decodeAudioData data sr c = .ok b) (hsr : 0 < sr) : 0 ≤ b.duration := by
  simp only [decodeAudioData] at h
  split at h
  · exact absurd h (by simp)
  · split at h
    · exact absurd h (by simp)
    · cases h
      unfold AudioBuffer.duration
      exact div_nonneg (Nat.cast_nonneg _) (le_of_lt hsr)

theorem processAudioPart_nextStartTime_le (currentTime : ℚ) (st : PlaybackState)
    (audioData : Option (List Char)) :
    st.nextStartTime ≤ (processAudioPart currentTime st audioData).1.nextStartTime := by
  cases audioData with
  | none => exact le_refl _
  | some s =>
    simp only [processAudioPart]
    by_cases hs : s = []
    · rw [if_pos hs]
    · rw [if_neg hs]
      cases hdec : decodeAudioData (decode s) 24000 1 with
      | error e => exact le_max_left _ _
      | ok buf =>
        have hd : 0 ≤ buf.duration := decodeAudioData_ok_duration _ _ _ _ hdec (by norm_num)
        have hm := le_max_left st.nextStartTime currentTime
        show st.nextStartTime ≤ max st.nextStartTime currentTime + buf.duration
        linarith

theorem processAudioPart_emit (currentTime : ℚ) (st : PlaybackState)
    (audioData : Option (List Char)) (sch : Scheduled)
    (h : (processAudioPart currentTime st audioData).2 = some sch) :
    st.nextStartTime ≤ sch.start ∧
    (processAudioPart currentTime st audioData).1.nextStartTime = sch.start + sch.duration ∧
    0 ≤ sch.duration ∧
    (processAudioPart currentTime st audioData).1.sources = st.sources ++ [sch] := by
  cases audioData with
  | none => exact Option.noConfusion h
  | some s =>
    simp only [processAudioPart] at h ⊢
    by_cases hs : s = []
    · rw [if_pos hs] at h
      exact Option.noConfusion h
    · rw [if_neg hs] at h ⊢
      cases hdec : decodeAudioData (decode s) 24000 1 with
      | error e =>
        rw [hdec] at h
        exact Option.noConfusion h
      | ok buf =>
        rw [hdec] at h
        obtain rfl := Option.some.inj h
        refine ⟨le_max_left _ _, rfl, ?_, rfl⟩
        exact decodeAudioData_ok_duration _ _ _ _ hdec (by norm_num)

/-- All sources present before a message's audio part are still present after
it (the audio path only appends). -/
theorem processAudioPart_sources_mono (currentTime : ℚ) (st : PlaybackState)
    (audioData : Option (List Char)) :
    ∀ x ∈ st.sources, x ∈ (processAudioPart currentTime st audioData).1.sources := by
  intro x hx
  cases audioData with
  | none => exact hx
  | some s =>
    simp only [processAudioPart]
    by_cases hs : s = []
    · rw [if_pos hs]; exact hx
    · rw [if_neg hs]
      cases hdec : decodeAudioData (decode s) 24000 1 with
      | error e => exact hx
      | ok buf =>
        show x ∈ st.sources ++ [_]
        simp only [List.mem_append]
        exact Or.inl hx

theorem chainedFrom_mono (t t' : ℚ) (l : List Scheduled) (h : t' ≤ t)
    (hc : chainedFrom t l) : chainedFrom t' l := by
  cases l with
  | nil => trivial
  | cons f rest => exact ⟨le_trans h hc.1, hc.2⟩

/-- Sequential processing of inbound audio chunks keeps the scheduled sources
chained from the starting cursor. -/
theorem scheduleStarts_chainedFrom (msgs : List (ℚ × List Char)) (st : PlaybackState) :
    chainedFrom st.nextStartTime (scheduleStarts st msgs) := by
  induction msgs generalizing st with
  | nil => trivial
  | cons c rest ih =>
    cases hp : (processAudioPart c.1 st (some c.2)).2 with
    | none =>
      simp only [scheduleStarts, hp, Option.toList, List.nil_append]
      exact chainedFrom_mono _ _ _ (processAudioPart_nextStartTime_le _ _ _) (ih _)
    | some sch =>
      simp only [scheduleStarts, hp, Option.toList, List.singleton_append]
      obtain ⟨h1, h2, _, _⟩ := processAudioPart_emit _ _ _ _ hp
      refine ⟨h1, ?_⟩
      rw [← h2]
      exact ih _

theorem scheduleStarts_duration_nonneg (msgs : List (ℚ × List Char)) (st : PlaybackState) :
    ∀ f ∈ scheduleStarts st msgs, 0 ≤ f.duration := by
  induction msgs generalizing st with
  | nil => simp [scheduleStarts]
  | cons c rest ih =>
    intro f hf
    simp only [scheduleStarts] at hf
    rcases List.mem_append.mp hf with h | h
    · cases hp : (processAudioPart c.1 st (some c.2)).2 with
      | none => rw [hp] at h; simp at h
      | some sch =>
        rw [hp] at h
        simp only [Option.toList, List.mem_singleton] at h
        subst h
        exact (processAudioPart_emit _ _ _ _ hp).2.2.1
    · exact ih _ f h

theorem chainedFrom_adjacent (l : List Scheduled) (t : ℚ) (hc : chainedFrom t l) :
    ∀ i, i + 1 < l.length →
      (l.getD i ⟨0, 0⟩).start + (l.getD i ⟨0, 0⟩).duration ≤ (l.getD (i + 1) ⟨0, 0⟩).start := by
  induction l generalizing t with
  | nil => intro i hi; simp at hi
  | cons f rest ih =>
    intro i hi
    cases i with
    | zero =>
      cases rest with
      | nil => simp at hi
      | cons g rest2 =>
        simpa using hc.2.1
    | succ j =>
      have := ih (f.start + f.duration) hc.2 j (by simpa using hi)
      simpa using this

/-- C1: for every starting playback state and every sequence of inbound audio
chunks processed by the playback path of connectLiveSession, the scheduled
start times are non-decreasing and each scheduled frame's start time is at
least the previous frame's start time plus its duration (no overlap), for any
number of frames N ≥ 0: the nextStartTime cursor is set to
max(nextStartTime, currentTime) before scheduling and advanced by the frame's
duration after scheduling. -/
theorem scheduled_starts_no_overlap (st : PlaybackState) (msgs : List (ℚ × List Char)) :
    ∀ i, i + 1 < (scheduleStarts st msgs).length →
      ((scheduleStarts st msgs).getD i ⟨0, 0⟩).start
          + ((scheduleStarts st msgs).getD i ⟨0, 0⟩).duration
        ≤ ((scheduleStarts st msgs).getD (i + 1) ⟨0, 0⟩).start ∧
      ((scheduleStarts st msgs).getD i ⟨0, 0⟩).start
        ≤ ((scheduleStarts st msgs).getD (i + 1) ⟨0, 0⟩).start := by
  intro i hi
  have hadj := chainedFrom_adjacent _ _ (scheduleStarts_chainedFrom msgs st) i hi
  refine ⟨hadj, ?_⟩
  have hmem : (scheduleStarts st msgs).getD i ⟨0, 0⟩ ∈ scheduleStarts st msgs := by
    have hg : (scheduleStarts st msgs).getD i ⟨0, 0⟩ = (scheduleStarts st msgs)[i] := by
      rw [List.getD_eq_getElem?_getD, List.getElem?_eq_getElem (by omega)]
      rfl
    rw [hg]
    exact List.getElem_mem _
  have hd := scheduleStarts_duration_nonneg msgs st _ hmem
  linarith

/-- Witness for scheduled_starts_no_overlap: two chunks each decoding to one
frame, processed from the initial state. -/
theorem scheduled_starts_no_overlap_witness :
    (0 + 1 <
      (scheduleStarts ⟨0, []⟩
        [((0:ℚ), ['A', 'A', 'A', '=']), ((0:ℚ), ['A', 'A', 'A', '='])]).length) ∧
    (((scheduleStarts ⟨0, []⟩
        [((0:ℚ), ['A', 'A', 'A', '=']), ((0:ℚ), ['A', 'A', 'A', '='])]).getD 0 ⟨0, 0⟩).start
          + ((scheduleStarts ⟨0, []⟩
        [((0:ℚ), ['A', 'A', 'A', '=']), ((0:ℚ), ['A', 'A', 'A', '='])]).getD 0 ⟨0, 0⟩).duration
        ≤ ((scheduleStarts ⟨0, []⟩
        [((0:ℚ), ['A', 'A', 'A', '=']), ((0:ℚ), ['A', 'A', 'A', '='])]).getD (0 + 1) ⟨0, 0⟩).start ∧
      ((scheduleStarts ⟨0, []⟩
        [((0:ℚ), ['A', 'A', 'A', '=']), ((0:ℚ), ['A', 'A', 'A', '='])]).getD 0 ⟨0, 0⟩).start
        ≤ ((scheduleStarts ⟨0, []⟩
        [((0:ℚ), ['A', 'A', 'A', '=']), ((0:ℚ), ['A', 'A', 'A', '='])]).getD (0 + 1) ⟨0, 0⟩).start) :=
  ⟨by decide,
   scheduled_starts_no_overlap ⟨0, []⟩
     [((0:ℚ), ['A', 'A', 'A', '=']), ((0:ℚ), ['A', 'A', 'A', '='])] 0 (by decide)⟩

/-- C2: after the onmessage handler processes any message whose
serverContent.interrupted flag is true, every playback source that was
scheduled beforehand is among the stopped ones, the scheduled-source set is
empty and nextStartTime equals 0, regardless of how many sources were pending. -/
theorem interrupted_clears_playback (st : PlaybackState) (currentTime : ℚ)
    (msg : ServerMessage) (hmsg : msg.interrupted = true) :
    (processMessage currentTime st msg).1.sources = [] ∧
    (processMessage currentTime st msg).1.nextStartTime = 0 ∧
    ∀ x ∈ st.sources, x ∈ (processMessage currentTime st msg).2 := by
  simp only [processMessage, hmsg, if_true]
  refine ⟨by trivial, by trivial, ?_⟩
  intro x hx
  exact processAudioPart_sources_mono _ _ _ x hx

/-- Witness for interrupted_clears_playback: one pending source, an
interrupting message with no audio. -/
theorem interrupted_clears_playback_witness :
    ((⟨1, 2⟩ : Scheduled) ∈ (⟨5, [⟨1, 2⟩]⟩ : PlaybackState).sources) ∧
    ((processMessage 0 ⟨5, [⟨1, 2⟩]⟩ ⟨none, true, none, none, false⟩).1.sources = [] ∧
     (processMessage 0 ⟨5, [⟨1, 2⟩]⟩ ⟨none, true, none, none, false⟩).1.nextStartTime = 0 ∧
     (⟨1, 2⟩ : Scheduled) ∈ (processMessage 0 ⟨5, [⟨1, 2⟩]⟩ ⟨none, true, none, none, false⟩).2) := by
  have h := interrupted_clears_playback ⟨5, [⟨1, 2⟩]⟩ 0 ⟨none, true, none, none, false⟩ rfl
  exact ⟨by decide, h.1, h.2.1, h.2.2 _ (by decide)⟩

/-! ### LiveChatApp UI: transcription accumulators, chat history, stop handler -/

inductive Sender
  | user
  | model
deriving DecidableEq

structure ChatEntry where
  sender : Sender
  text : List Char
deriving DecidableEq

/-- React state of LiveChatApp relevant to the onMessage handler: the two
transcription accumulators and the chat history (entry ids and timestamps are
not modelled). -/
structure UIState where
  currentInputTranscription : List Char
  currentOutputTranscription : List Char
  chatHistory : List ChatEntry
deriving DecidableEq

/-- JS String.prototype.trim whitespace test, restricted to the whitespace
characters that can occur here. -/
def jsWhitespace (c : Char) : Bool :=
  c == ' ' || c == '\t' || c == '\n' || c == '\r'

/-- JS String.prototype.trim: strip whitespace from both ends. -/
def jsTrim (s : List Char) : List Char :=
  ((s.dropWhile jsWhitespace).reverse.dropWhile jsWhitespace).reverse

/-- The onMessage handler of LiveChatApp.  The React closure behaviour is
modelled exactly: the handler is created once inside handleStartConversation,
so the plain reads of currentInputTranscription / currentOutputTranscription
in its turn-complete branch see the values captured at creation time
(snapInput, snapOutput — the stale closure), while the functional updates
setX(prev => ...) and setChatHistory(prev => ...) operate on the live state st. -/
def onMessage (snapInput snapOutput : List Char) (st : UIState) (msg : ServerMessage) :
    UIState :=
  let st1 :=
    match msg.outputTranscription with
    | some text =>
      { st with currentOutputTranscription := st.currentOutputTranscription ++ text }
    | none =>
      match msg.inputTranscription with
      | some text =>
        { st with currentInputTranscription := st.currentInputTranscription ++ text }
      | none => st
  if msg.turnComplete then
    let st2 :=
      if jsTrim snapInput ≠ [] then
        { st1 with chatHistory := st1.chatHistory ++ [{ sender := .user, text := snapInput }] }
      else st1
    let st3 :=
      if jsTrim snapOutput ≠ [] then
        { st2 with chatHistory := st2.chatHistory ++ [{ sender := .model, text := snapOutput }] }
      else st2
    { st3 with currentInputTranscription := [], currentOutputTranscription := [] }
  else st1

/-- Initial LiveChatApp state for a fresh conversation. -/
def initialUIState : UIState := ⟨[], [], []⟩

/-- Sequential delivery of messages to the onMessage handler. -/
def runOnMessages (snapInput snapOutput : List Char) (st : UIState)
    (msgs : List ServerMessage) : UIState :=
  msgs.foldl (onMessage snapInput snapOutput) st

/-- C6 (evaluation of the code at the failing input): on a fresh session the
input fragment "hello" is accumulated into the live state, but on turn-complete
the handler tests and stores the stale closure values captured at session start
(both empty), so no chat-history entry is appended and both accumulators are
reset — the claim (and the evident intent of the code) is that one user entry
with text "hello" be appended. -/
theorem liveChat_turnComplete_stale_closure :
    (runOnMessages [] [] initialUIState
        [⟨none, false, none, some ['h','e','l','l','o'], false⟩]).currentInputTranscription
      = ['h','e','l','l','o'] ∧
    runOnMessages [] [] initialUIState
        [⟨none, false, none, some ['h','e','l','l','o'], false⟩,
         ⟨none, false, none, none, true⟩]
      = ⟨[], [], []⟩ := by
  constructor
  · decide
  · decide

/-- C10: a message carrying both an outputTranscription and an
inputTranscription fragment appends only the output fragment to its
accumulator and silently discards the input fragment (exclusive else-if);
the input fragment is accumulated only when no output fragment is present. -/
theorem onMessage_transcription_exclusive (snapInput snapOutput : List Char)
    (st : UIState) (o i : List Char) :
    (onMessage snapInput snapOutput st
        ⟨none, false, some o, some i, false⟩).currentOutputTranscription
      = st.currentOutputTranscription ++ o ∧
    (onMessage snapInput snapOutput st
        ⟨none, false, some o, some i, false⟩).currentInputTranscription
      = st.currentInputTranscription ∧
    (onMessage snapInput snapOutput st
        ⟨none, false, some o, some i, false⟩).chatHistory = st.chatHistory ∧
    (onMessage snapInput snapOutput st
        ⟨none, false, none, some i, false⟩).currentInputTranscription
      = st.currentInputTranscription ++ i :=
  ⟨rfl, rfl, rfl, rfl⟩

/-- Session handle stored in sessionRef (opaque to the component). -/
structure SessionHandle where
  id : Nat
deriving DecidableEq

/-- The refs and state of LiveChatApp touched by handleStopConversation. -/
structure LiveChatRefs where
  sessionRef : Option SessionHandle
  sessionPromiseRef : Option Nat
  isRecording : Bool
deriving DecidableEq

/-- Model of handleStopConversation: close the session if one is stored, then
unconditionally clear isRecording and both refs.  Returns the new state and
the close calls issued. -/
def handleStopConversation (st : LiveChatRefs) : LiveChatRefs × List SessionHandle :=
  let closes :=
    match st.sessionRef with
    | some s => [s]
    | none => []
  ({ sessionRef := none, sessionPromiseRef := none, isRecording := false }, closes)

/-- State of LiveChatApp before any session was started. -/
def idleRefs : LiveChatRefs := ⟨none, none, false⟩

/-- C8: after any stop, a second stop call changes nothing and closes nothing
(no error), and a stop before any start leaves the idle state unchanged and
closes nothing. -/
theorem handleStopConversation_idempotent (st : LiveChatRefs) :
    handleStopConversation (handleStopConversation st).1 = ((handleStopConversation st).1, []) ∧
    handleStopConversation idleRefs = (idleRefs, []) :=
  ⟨rfl, rfl⟩

/-! ### connectLiveSession setup phase and capture callback -/

inductive SetupEvent
  | newInputAudioContext
  | newOutputAudioContext
  | getUserMediaCall
  | liveConnect
deriving DecidableEq, BEq

/-- Straight-line setup phase of connectLiveSession up to the channel
connection, as an event trace: create the input and output AudioContexts,
request the microphone; when getUserMedia rejects, the catch rethrows
"Microphone access denied or not available. " plus the message — before
ai.live.connect is ever called, so no callbacks are registered and no audio
can be scheduled — otherwise proceed to the connect call. -/
def connectLiveSession (micResult : Except String Unit) :
    List SetupEvent × Except String Unit :=
  match micResult with
  | .error msg =>
    ([.newInputAudioContext, .newOutputAudioContext, .getUserMediaCall],
     .error ("Microphone access denied or not available. " ++ msg))
  | .ok _ =>
    ([.newInputAudioContext, .newOutputAudioContext, .getUserMediaCall, .liveConnect],
     .ok ())

/-- C7: when microphone acquisition fails, connectLiveSession rethrows the
failure to its caller as a session-establishment failure: the live connect
call never appears in the trace (the session is never opened, no onmessage
can fire, no audio is played) and the outcome is the error with the
human-readable prefix. -/
theorem connectLiveSession_mic_failure (msg : String) :
    (connectLiveSession (.error msg)).1.contains .liveConnect = false ∧
    isErr (connectLiveSession (.error msg)).2 = true ∧
    (connectLiveSession (.error msg)).2
      = .error ("Microphone access denied or not available. " ++ msg) :=
  ⟨rfl, rfl, rfl⟩

/-- The scriptProcessor.onaudioprocess callback registered in onopen: read the
chunk, encode it with createBlob, and hand exactly one blob to
session.sendRealtimeInput.  Returns the blobs sent by one invocation. -/
def onaudioprocess (inputData : List ℚ) : List WireBlob := [createBlob inputData]

/-- C9: one capture callback invocation with a 4096-sample chunk sends exactly
one wire blob, with mime type "audio/pcm;rate=16000" and base64 payload length
10924 = 4 · ceil(4096·2 / 3), the padded base64 length of 8192 bytes. -/
theorem capture_sends_single_blob (chunk : List ℚ) (h : chunk.length = 4096) :
    onaudioprocess chunk = [createBlob chunk] ∧
    (createBlob chunk).mimeType = "audio/pcm;rate=16000" ∧
    (createBlob chunk).data.length = 10924 ∧
    10924 = 4 * ((4096 * 2 + 2) / 3) := by
  refine ⟨rfl, rfl, ?_, by norm_num⟩
  show (encode (int16sToBytes (createBlobInt16 chunk))).length = 10924
  rw [encode_length, int16sToBytes_length]
  have hl : (createBlobInt16 chunk).length = 4096 := by simp [createBlobInt16, h]
  rw [hl]

/-- Witness for capture_sends_single_blob at a concrete 4096-sample chunk. -/
theorem capture_sends_single_blob_witness :
    ((List.replicate 4096 (0:ℚ)).length = 4096) ∧
    (onaudioprocess (List.replicate 4096 (0:ℚ)) = [createBlob (List.replicate 4096 (0:ℚ))] ∧
     (createBlob (List.replicate 4096 (0:ℚ))).mimeType = "audio/pcm;rate=16000" ∧
     (createBlob (List.replicate 4096 (0:ℚ))).data.length = 10924 ∧
     10924 = 4 * ((4096 * 2 + 2) / 3)) :=
  ⟨by rw [List.length_replicate], capture_sends_single_blob _ (by rw [List.length_replicate])⟩
